import Mathlib

/-!
Verification of the parsing and note-generation core of a Rust music-theory
library (`rust-mc-theo`).

Embedding conventions:
* Rust strings are modelled as `List Char`; all inputs of interest are ASCII,
  so Rust byte indices coincide with character indices.
* Rust `u8` fields are modelled as `Nat`.  In every domain quantified over
  below the values stay far under 256, so no `u8` truncation is observable.
* Fallible Rust code (`Result`) is modelled with `Except`; a Rust panic
  (`Vec::rotate_left` called past the length, `u8` subtraction underflow)
  is modelled as `Option.none`.
* The `regex` crate's `find` on an alternation of literal strings is modelled
  by `findLit`: the leftmost match wins, and at the same start position the
  earliest alternative in the pattern wins (leftmost-first semantics).

The files `src/chord/chord.rs` and `src/scale/mode.rs` of the repository are
transcribed directly.  The leaf modules they call (`note/pitch_class.rs`,
`interval.rs`, `chord/quality.rs`, `chord/number.rs`, the error enums) are not
part of the provided sources; those definitions are modelled from the spec and
carry a `Modelled from the spec:` doc comment.
-/

deriving instance DecidableEq for Except

namespace RustMusicTheory

/-- The 12 equal-tempered pitch classes, ordinal 0 = C.
Modelled from the spec: `note/pitch_class.rs` is not among the sources;
the spec fixes an enum of 12 variants ordered by semitone value from C. -/
inductive PitchClass where
  | C | Cs | D | Ds | E | F | Fs | G | Gs | A | As | B
deriving DecidableEq, Repr, Fintype

/-- Semitone ordinal of a pitch class (the Rust `as u8` value). -/
def PitchClass.val : PitchClass → Nat
  | .C => 0 | .Cs => 1 | .D => 2 | .Ds => 3 | .E => 4 | .F => 5
  | .Fs => 6 | .G => 7 | .Gs => 8 | .A => 9 | .As => 10 | .B => 11

/-- Pitch class from a semitone ordinal, taken modulo 12.
Modelled from the spec: ordinal arithmetic `(value + n) mod 12` is the only
legal way to transpose. -/
def PitchClass.fromValue (n : Nat) : PitchClass :=
  match n % 12 with
  | 0 => .C | 1 => .Cs | 2 => .D | 3 => .Ds | 4 => .E | 5 => .F
  | 6 => .Fs | 7 => .G | 8 => .Gs | 9 => .A | 10 => .As | _ => .B

/-- A note: pitch class plus scientific-pitch octave (Rust `u8`). -/
structure Note where
  pitch_class : PitchClass
  octave : Nat
deriving DecidableEq, Repr

/-- An interval wrapping a semitone count.
Modelled from the spec: `interval.rs` is not among the sources; the spec says
an Interval wraps a semitone count strictly within 1..=12. -/
structure Interval where
  semitones : Nat
deriving DecidableEq, Repr

/-- Modelled from the spec: `NoteError::InvalidPitch`. -/
inductive NoteError where
  | InvalidPitch
deriving DecidableEq, Repr

/-- Modelled from the spec: `IntervalError::InvalidSemitone`. -/
inductive IntervalError where
  | InvalidSemitone
deriving DecidableEq, Repr

/-- Modelled from the spec: the `ChordError` kinds of the error module
(`QualityFromRegex`, `NumberFromRegex`, `InversionFormat`) plus the variant
wrapping a propagated `NoteError` (chord.rs applies `?` to
`PitchClass::from_regex`, so the conversion exists). -/
inductive ChordError where
  | QualityFromRegex
  | NumberFromRegex
  | InversionFormat
  | InvalidPitch
deriving DecidableEq, Repr

/-- Modelled from the spec: `ScaleError::ModeFromRegex`. -/
inductive ScaleError where
  | ModeFromRegex
deriving DecidableEq, Repr

/-- Chord color vocabulary.
Modelled from the spec: `chord/quality.rs` is not among the sources; the spec
lists exactly these ten variants.  chord.rs references the subset
Major, Minor, Suspended2, Suspended4, Augmented, Diminished, HalfDiminished,
Dominant in its interval table. -/
inductive Quality where
  | Major | Minor | Suspended2 | Suspended4 | Augmented | Diminished
  | HalfDiminished | MinorMajor | AugmentedMajor | Dominant
deriving DecidableEq, Repr, Fintype

/-- Chord extension vocabulary.
Modelled from the spec and chord.rs: the spec lists Triad, Seventh, Ninth,
Eleventh, Thirteenth; chord.rs additionally matches on `MajorSeventh`
(arms `(Augmented, MajorSeventh)` and `(Minor, MajorSeventh)`), so the enum
has that sixth variant. -/
inductive Number where
  | Triad | Seventh | MajorSeventh | Ninth | Eleventh | Thirteenth
deriving DecidableEq, Repr, Fintype

/-- Modelled from the spec: `Interval::from_semitones` validates that every
count is in 1..=12 and fails with `InvalidSemitone` otherwise. -/
def Interval.from_semitones (counts : List Nat) : Except IntervalError (List Interval) :=
  if counts.all (fun c => decide (1 ≤ c) && decide (c ≤ 12)) then
    .ok (counts.map Interval.mk)
  else
    .error .InvalidSemitone

/-- One step of the interval walk: the next note after `prev`.
Modelled from the spec: next ordinal is `(previous ordinal + semitones) mod 12`
and the octave increments by 1 exactly when the addition wraps past 11. -/
def nextNote (prev : Note) (iv : Interval) : Note :=
  let t := prev.pitch_class.val + iv.semitones
  { pitch_class := PitchClass.fromValue t
    octave := prev.octave + (if 12 ≤ t then 1 else 0) }

/-- Tail of the interval walk starting after `prev`. -/
def toNotesGo (prev : Note) : List Interval → List Note
  | [] => []
  | iv :: rest =>
    let nxt := nextNote prev iv
    nxt :: toNotesGo nxt rest

/-- Modelled from the spec: `Interval::to_notes` produces
`intervals.len() + 1` notes starting from the root. -/
def Interval.to_notes (root : Note) (intervals : List Interval) : List Note :=
  root :: toNotesGo root intervals

/-- A chord, as in chord.rs: root, octave, interval table, quality, number,
inversion.  All fields are public in the source. -/
structure Chord where
  root : PitchClass
  octave : Nat
  intervals : List Interval
  quality : Quality
  number : Number
  inversion : Nat
deriving DecidableEq, Repr

/-- The `(quality, number)` interval table of chord.rs before the trailing
`.unwrap()`: 22 declared arms plus the catch-all `_ => [4, 3]`. -/
def rawChordIntervals (quality : Quality) (number : Number) : Except IntervalError (List Interval) :=
  match quality, number with
  | .Major, .Triad => Interval.from_semitones [4, 3]
  | .Minor, .Triad => Interval.from_semitones [3, 4]
  | .Suspended2, .Triad => Interval.from_semitones [2, 5]
  | .Suspended4, .Triad => Interval.from_semitones [5, 7]
  | .Augmented, .Triad => Interval.from_semitones [4, 4]
  | .Diminished, .Triad => Interval.from_semitones [3, 3]
  | .Major, .Seventh => Interval.from_semitones [4, 3, 4]
  | .Minor, .Seventh => Interval.from_semitones [3, 4, 3]
  | .Augmented, .Seventh => Interval.from_semitones [4, 4, 2]
  | .Augmented, .MajorSeventh => Interval.from_semitones [4, 4, 3]
  | .Diminished, .Seventh => Interval.from_semitones [3, 3, 3]
  | .HalfDiminished, .Seventh => Interval.from_semitones [3, 3, 4]
  | .Minor, .MajorSeventh => Interval.from_semitones [3, 4, 4]
  | .Dominant, .Seventh => Interval.from_semitones [4, 3, 3]
  | .Dominant, .Ninth => Interval.from_semitones [4, 3, 3, 4]
  | .Major, .Ninth => Interval.from_semitones [4, 3, 4, 3]
  | .Dominant, .Eleventh => Interval.from_semitones [4, 3, 3, 4, 4]
  | .Major, .Eleventh => Interval.from_semitones [4, 3, 4, 3, 3]
  | .Minor, .Eleventh => Interval.from_semitones [3, 4, 3, 4, 3]
  | .Dominant, .Thirteenth => Interval.from_semitones [4, 3, 3, 4, 3, 4]
  | .Major, .Thirteenth => Interval.from_semitones [4, 3, 4, 3, 3, 4]
  | .Minor, .Thirteenth => Interval.from_semitones [3, 4, 3, 4, 3, 4]
  | _, _ => Interval.from_semitones [4, 3]

/-- `Chord::chord_intervals`: the table followed by `.unwrap()`.  Every arm
applies `from_semitones` to counts within 1..=12, so the unwrap never
panics; the unwrap is modelled as `getD []` and `chord_intervals_never_fails`
below proves the default is dead. -/
def Chord.chord_intervals (quality : Quality) (number : Number) : List Interval :=
  (rawChordIntervals quality number).toOption.getD []

/-- The `.unwrap()` in `chord_intervals` can never panic: every arm of the
table validates successfully. -/
theorem chord_intervals_never_fails :
    ∀ (q : Quality) (n : Number), (rawChordIntervals q n).toOption.isSome = true := by
  decide

/-- `Chord::with_inversion`: builds the interval table once and stores the
requested inversion modulo `intervals.len() + 1`. -/
def Chord.with_inversion (root : PitchClass) (quality : Quality) (number : Number)
    (inversion : Nat) : Chord :=
  let intervals := Chord.chord_intervals quality number
  let inversion := inversion % (intervals.length + 1)
  { root := root, octave := 4, intervals := intervals, quality := quality,
    number := number, inversion := inversion }

/-- `Chord::new`: root position. -/
def Chord.new (root : PitchClass) (quality : Quality) (number : Number) : Chord :=
  Chord.with_inversion root quality number 0

/-- The 22 `(quality, number)` pairs declared in the chord.rs interval table. -/
def declaredPairs : List (Quality × Number) :=
  [(.Major, .Triad), (.Minor, .Triad), (.Suspended2, .Triad), (.Suspended4, .Triad),
   (.Augmented, .Triad), (.Diminished, .Triad),
   (.Major, .Seventh), (.Minor, .Seventh), (.Augmented, .Seventh),
   (.Augmented, .MajorSeventh), (.Diminished, .Seventh), (.HalfDiminished, .Seventh),
   (.Minor, .MajorSeventh), (.Dominant, .Seventh),
   (.Dominant, .Ninth), (.Major, .Ninth),
   (.Dominant, .Eleventh), (.Major, .Eleventh), (.Minor, .Eleventh),
   (.Dominant, .Thirteenth), (.Major, .Thirteenth), (.Minor, .Thirteenth)]

/-- Interval count for each extension: a triad has 2 intervals, a (major)
seventh 3, a ninth 4, an eleventh 5, a thirteenth 6. -/
def toneCount : Number → Nat
  | .Triad => 2
  | .Seventh => 3
  | .MajorSeventh => 3
  | .Ninth => 4
  | .Eleventh => 5
  | .Thirteenth => 6

/-- C3: `Chord::chord_intervals` is total over `(Quality, Number)`: the table
declares exactly 22 combinations; each declared combination yields an interval
sequence whose length is the number's tone count (triad 2, seventh 3, ninth 4,
eleventh 5, thirteenth 6); every undeclared combination — e.g.
`(Suspended2, Thirteenth)` — yields the Major-Triad interval set `[4, 3]`. -/
theorem claim3_theorem :
    declaredPairs.length = 22 ∧
    (∀ (q : Quality) (n : Number), (q, n) ∈ declaredPairs →
      (Chord.chord_intervals q n).length = toneCount n) ∧
    (∀ (q : Quality) (n : Number), (q, n) ∉ declaredPairs →
      Chord.chord_intervals q n = [⟨4⟩, ⟨3⟩]) := by
  decide

/-- Witness for C3 at concrete inputs: the declared pair `(Major, Triad)` has
2 intervals and the undeclared pair `(Suspended2, Thirteenth)` falls back to
`[4, 3]`. -/
theorem claim3_witness :
    (Chord.chord_intervals .Major .Triad).length = toneCount .Triad ∧
    Chord.chord_intervals .Suspended2 .Thirteenth = [⟨4⟩, ⟨3⟩] :=
  ⟨claim3_theorem.2.1 .Major .Triad (by decide),
   claim3_theorem.2.2 .Suspended2 .Thirteenth (by decide)⟩

/-- C5 counterexample: for `(Major, Triad)` the interval table has `k = 2`
entries, and `with_inversion(C, Major, Triad, k + 1)` stores inversion `0`
(since `(k+1) % (k+1) = 0`), not `1` as the claim states. -/
theorem claim5_counterexample :
    (Chord.with_inversion .C .Major .Triad
        ((Chord.chord_intervals .Major .Triad).length + 1)).inversion = 0 ∧
    (Chord.with_inversion .C .Major .Triad
        ((Chord.chord_intervals .Major .Triad).length + 1)).inversion ≠ 1 := by
  decide

/-- C5 as amended: with `k = intervals.len()`, `with_inversion(_,_,_,k+1)`
wraps to inversion `0` (root position; it is `k+2` that gives `1`), and the
stored inversion always satisfies `0 ≤ inversion ≤ k`. -/
theorem claim5_theorem :
    ∀ (root : PitchClass) (q : Quality) (n : Number),
      (Chord.with_inversion root q n ((Chord.chord_intervals q n).length + 1)).inversion = 0 ∧
      (∀ inv : Nat,
        (Chord.with_inversion root q n inv).inversion ≤ (Chord.chord_intervals q n).length) := by
  intro root q n
  constructor
  · show ((Chord.chord_intervals q n).length + 1) % ((Chord.chord_intervals q n).length + 1) = 0
    exact Nat.mod_self _
  · intro inv
    show inv % ((Chord.chord_intervals q n).length + 1) ≤ (Chord.chord_intervals q n).length
    exact Nat.lt_succ_iff.mp (Nat.mod_lt _ (Nat.succ_pos _))

/-- Does the literal `a` occur at the very start of `s`? -/
def litAt : List Char → List Char → Bool
  | [], _ => true
  | _ :: _, [] => false
  | a :: as, c :: cs => a == c && litAt as cs

/-- The length of the first alternative (in pattern order) matching at the
start of `s`, if any. -/
def firstAlt (alts : List (List Char)) (s : List Char) : Option Nat :=
  (alts.find? (fun a => litAt a s)).map List.length

/-- Scan of `regex::find` for an alternation of literals, from index `i`. -/
def findLitFrom (alts : List (List Char)) : List Char → Nat → Option (Nat × Nat)
  | s, i =>
    match firstAlt alts s with
    | some len => some (i, i + len)
    | none =>
      match s with
      | [] => none
      | _ :: t => findLitFrom alts t (i + 1)

/-- `regex::Regex::find` for a pattern that is an alternation of literal
strings: the leftmost match wins, and at equal start positions the earliest
alternative in the pattern wins.  Returns the match's (start, end). -/
def findLit (alts : List (List Char)) (s : List Char) : Option (Nat × Nat) :=
  findLitFrom alts s 0

/-- The nine scale modes of mode.rs. -/
inductive Mode where
  | Ionian | Dorian | Phrygian | Lydian | Mixolydian | Aeolian | Locrian
  | HarmonicMinor | MelodicMinor
deriving DecidableEq, Repr

/-- mode.rs `REGEX_MAJOR`. -/
def REGEX_MAJOR : List (List Char) :=
  [("M").data, ("maj").data, ("Maj").data, ("Major").data, ("major").data,
   ("Ionian").data, ("ionian").data]

/-- mode.rs `REGEX_MINOR`. -/
def REGEX_MINOR : List (List Char) :=
  [("m").data, ("min").data, ("Min").data, ("Minor").data, ("minor").data,
   ("Aeolian").data, ("aeolian").data]

/-- mode.rs `REGEX_DORIAN`. -/
def REGEX_DORIAN : List (List Char) := [("dor").data, ("dorian").data]

/-- mode.rs `REGEX_PHRYGIAN`. -/
def REGEX_PHRYGIAN : List (List Char) := [("phy").data, ("phr").data, ("phrygian").data]

/-- mode.rs `REGEX_LYDIAN`. -/
def REGEX_LYDIAN : List (List Char) := [("lyd").data, ("lydian").data]

/-- mode.rs `REGEX_MIXOLYDIAN`. -/
def REGEX_MIXOLYDIAN : List (List Char) := [("mix").data, ("mixolydian").data]

/-- mode.rs `REGEX_LOCRIAN`. -/
def REGEX_LOCRIAN : List (List Char) := [("loc").data, ("locrian").data]

/-- mode.rs `REGEX_MELODIC_MINOR`. -/
def REGEX_MELODIC_MINOR : List (List Char) :=
  [("mel minor").data, ("melodicminor").data, ("melodic minor").data,
   ("Melodic Minor").data, ("MelodicMinor").data]

/-- mode.rs `REGEX_HARMONIC_MINOR`. -/
def REGEX_HARMONIC_MINOR : List (List Char) :=
  [("har minor").data, ("harmonicminor").data, ("harmonic minor").data,
   ("Harmonic Minor").data, ("HarmonicMinor").data]

/-- The priority-ordered `regexes` vector built inside `Mode::from_regex`. -/
def modeRegexes : List (List (List Char) × Mode) :=
  [(REGEX_MAJOR, .Ionian), (REGEX_HARMONIC_MINOR, .HarmonicMinor),
   (REGEX_MELODIC_MINOR, .MelodicMinor), (REGEX_MINOR, .Aeolian),
   (REGEX_DORIAN, .Dorian), (REGEX_LOCRIAN, .Locrian),
   (REGEX_MIXOLYDIAN, .Mixolydian), (REGEX_PHRYGIAN, .Phrygian),
   (REGEX_LYDIAN, .Lydian)]

/-- The `for (regex, mode_enum) in regexes` loop of `Mode::from_regex`:
return the first table entry whose regex finds a match. -/
def modeFind : List (List (List Char) × Mode) → List Char → Except ScaleError (Mode × (Nat × Nat))
  | [], _ => .error .ModeFromRegex
  | (regex, modeEnum) :: rest, s =>
    match findLit regex s with
    | some modeMatch => .ok (modeEnum, modeMatch)
    | none => modeFind rest s

/-- `Mode::from_regex`. -/
def Mode.from_regex (s : List Char) : Except ScaleError (Mode × (Nat × Nat)) :=
  modeFind modeRegexes s

/-- If no regex of the table matches, the loop falls through to
`Err(ModeFromRegex)`. -/
theorem modeFind_all_none :
    ∀ (table : List (List (List Char) × Mode)) (s : List Char),
      (∀ p ∈ table, findLit p.1 s = none) →
      modeFind table s = .error .ModeFromRegex := by
  intro table
  induction table with
  | nil => intro s _; rfl
  | cons hd tl ih =>
    intro s h
    obtain ⟨regex, modeEnum⟩ := hd
    have hhd := h (regex, modeEnum) (List.mem_cons_self _ _)
    simp only [modeFind, hhd]
    exact ih s (fun p hp => h p (List.mem_cons_of_mem _ hp))

/-- C9: when none of the nine mode alias regexes finds a match in the input,
`Mode::from_regex` returns the `ModeFromRegex` error (and, being a total
function, does not panic). -/
theorem claim9_theorem :
    ∀ s : List Char, (∀ p ∈ modeRegexes, findLit p.1 s = none) →
      Mode.from_regex s = .error .ModeFromRegex := by
  intro s h
  exact modeFind_all_none modeRegexes s h

/-- Witness for C9: on the concrete input "zzz" no alias matches, and
`Mode::from_regex` reports `ModeFromRegex`. -/
theorem claim9_witness :
    Mode.from_regex (("zzz").data) = .error .ModeFromRegex :=
  claim9_theorem (("zzz").data) (by decide)

/-- C2 counterexample: the input "HarmonicMinor" matches a harmonic-minor
alias (it is one, verbatim), yet `Mode::from_regex` returns `Ionian`: the
Major regex is tried first and its one-letter alias "M" matches the capital
M of "Minor" at index 8. -/
theorem claim2_counterexample :
    (findLit REGEX_HARMONIC_MINOR (("HarmonicMinor").data)).isSome = true ∧
    Mode.from_regex (("HarmonicMinor").data) = .ok (Mode.Ionian, (8, 9)) ∧
    Mode.Ionian ≠ Mode.HarmonicMinor := by
  refine ⟨by decide, by decide, by decide⟩

/-- C2 as amended: the harmonic and melodic minor aliases take precedence over
the plain minor aliases that are substrings of them, but not over the
Major-family regex, which is checked first.  For every input in which no
Major alias (`M`, `maj`, `Maj`, `Major`, `major`, `Ionian`, `ionian`) occurs,
a harmonic-minor alias match yields `HarmonicMinor`, and a melodic-minor
alias match (with no harmonic alias present) yields `MelodicMinor` — never
`Aeolian` and never `Ionian`.  Inputs containing a capital M (such as
"Harmonic Minor" or "HarmonicMinor") are instead claimed by the Major regex
and yield `Ionian`. -/
theorem claim2_theorem :
    ∀ s : List Char,
      (findLit REGEX_MAJOR s = none → (findLit REGEX_HARMONIC_MINOR s).isSome = true →
        ∃ m, Mode.from_regex s = .ok (Mode.HarmonicMinor, m)) ∧
      (findLit REGEX_MAJOR s = none → findLit REGEX_HARMONIC_MINOR s = none →
        (findLit REGEX_MELODIC_MINOR s).isSome = true →
        ∃ m, Mode.from_regex s = .ok (Mode.MelodicMinor, m)) := by
  intro s
  constructor
  · intro hmaj hhar
    obtain ⟨m, hm⟩ := Option.isSome_iff_exists.mp hhar
    refine ⟨m, ?_⟩
    simp only [Mode.from_regex, modeRegexes, modeFind, hmaj, hm]
  · intro hmaj hhar hmel
    obtain ⟨m, hm⟩ := Option.isSome_iff_exists.mp hmel
    refine ⟨m, ?_⟩
    simp only [Mode.from_regex, modeRegexes, modeFind, hmaj, hhar, hm]

/-- Witness for C2 (amended): on the all-lowercase inputs "harmonic minor"
and "melodic minor" no Major alias occurs and the multi-word regexes win. -/
theorem claim2_witness :
    (∃ m, Mode.from_regex (("harmonic minor").data) = .ok (Mode.HarmonicMinor, m)) ∧
    (∃ m, Mode.from_regex (("melodic minor").data) = .ok (Mode.MelodicMinor, m)) :=
  ⟨(claim2_theorem (("harmonic minor").data)).1 (by decide) (by decide),
   (claim2_theorem (("melodic minor").data)).2 (by decide) (by decide) (by decide)⟩

/-- Whitespace predicate for `str::trim` (the inputs of interest only ever
contain the ASCII space). -/
def isWhite (c : Char) : Bool := c == ' ' || c == '\t' || c == '\n' || c == '\r'

/-- `str::trim`: strip leading and trailing whitespace. -/
def trim (s : List Char) : List Char :=
  ((s.dropWhile isWhite).reverse.dropWhile isWhite).reverse

/-- `str::find(char)`: index of the first occurrence of `ch`. -/
def findCharIdx (ch : Char) : List Char → Option Nat
  | [] => none
  | c :: rest => if c == ch then some 0 else (findCharIdx ch rest).map (fun i => i + 1)

/-- `Iterator::position`: index of the first element satisfying the
predicate. -/
def position (p : Note → Bool) : List Note → Option Nat
  | [] => none
  | n :: rest => if p n then some 0 else (position p rest).map (fun i => i + 1)

/-- Semitone value of a pitch letter (either case).
Modelled from the spec: the PitchClass recognizer matches a leading pitch
letter A–G, case-insensitive. -/
def pitchLetter : Char → Option Nat
  | 'C' => some 0 | 'c' => some 0
  | 'D' => some 2 | 'd' => some 2
  | 'E' => some 4 | 'e' => some 4
  | 'F' => some 5 | 'f' => some 5
  | 'G' => some 7 | 'g' => some 7
  | 'A' => some 9 | 'a' => some 9
  | 'B' => some 11 | 'b' => some 11
  | _ => none

/-- Consume accidental tokens after the pitch letter, adjusting the semitone
value mod 12; returns the adjusted value and the number of consumed chars.
Modelled from the spec: an optional sharp/flat accidental token follows the
letter; enharmonic spellings map to the same ordinal. -/
def accLoop : List Char → Nat → Nat → Nat × Nat
  | cs, v, consumed =>
    match cs with
    | '#' :: t => accLoop t ((v + 1) % 12) (consumed + 1)
    | 'b' :: t => accLoop t ((v + 11) % 12) (consumed + 1)
    | _ => (v, consumed)

/-- `PitchClass::from_regex`.
Modelled from the spec: match a leading pitch letter (A–G, case-insensitive)
optionally followed by sharp/flat accidentals at the start of the input;
return the pitch class and the matched span's end; fail with `InvalidPitch`
when no letter token is found. -/
def PitchClass.from_regex (s : List Char) : Except NoteError (PitchClass × Nat) :=
  match s with
  | [] => .error .InvalidPitch
  | c :: rest =>
    match pitchLetter c with
    | none => .error .InvalidPitch
    | some v =>
      let p := accLoop rest v 0
      .ok (PitchClass.fromValue p.1, 1 + p.2)

/-- Quality alias table.
Modelled from the spec: `chord/quality.rs` is not among the sources; the spec
prescribes a fixed ordered table of (alias-alternation, variant) pairs in
which multi-word aliases (half diminished, minor major, augmented major) are
attempted before the shorter aliases that are substrings of them. -/
def qualityRegexes : List (List (List Char) × Quality) :=
  [([("half diminished").data, ("halfdim").data], .HalfDiminished),
   ([("minor major").data, ("minmaj").data], .MinorMajor),
   ([("augmented major").data, ("augmaj").data], .AugmentedMajor),
   ([("suspended2").data, ("sus2").data], .Suspended2),
   ([("suspended4").data, ("sus4").data], .Suspended4),
   ([("augmented").data, ("aug").data], .Augmented),
   ([("diminished").data, ("dim").data], .Diminished),
   ([("dominant").data, ("dom").data], .Dominant),
   ([("major").data, ("maj").data, ("M").data], .Major),
   ([("minor").data, ("min").data, ("m").data], .Minor)]

/-- The quality recognizer loop: first matching table entry wins with its
span.  When no alias matches, an empty input is the quality-recognized-with-
no-match-span case `(Major, None)` that chord.rs handles (a bare "C" or
"C/E" is a major triad), while unrecognized nonempty quality text is the
fatal `QualityFromRegex` error the spec prescribes ("on failure the whole
call fails with the quality error"). -/
def qualityFind : List (List (List Char) × Quality) → List Char →
    Except ChordError (Quality × Option (Nat × Nat))
  | [], [] => .ok (.Major, none)
  | [], _ :: _ => .error .QualityFromRegex
  | (regex, qualityEnum) :: rest, s =>
    match findLit regex s with
    | some qualityMatch => .ok (qualityEnum, some qualityMatch)
    | none => qualityFind rest s

/-- `Quality::from_regex`.
Modelled from the spec: alias-driven recognition over the priority table;
unrecognized nonempty quality text fails with the quality error, an empty
clause is recognized as `(Major, None)`. -/
def Quality.from_regex (s : List Char) : Except ChordError (Quality × Option (Nat × Nat)) :=
  qualityFind qualityRegexes s

/-- Number alias table.
Modelled from the spec: `chord/number.rs` is not among the sources; the
multi-word alias of MajorSeventh is attempted before the Seventh aliases
that are substrings of it. -/
def numberRegexes : List (List (List Char) × Number) :=
  [([("thirteenth").data, ("13").data], .Thirteenth),
   ([("eleventh").data, ("11").data], .Eleventh),
   ([("ninth").data, ("9").data], .Ninth),
   ([("major seventh").data, ("maj7").data], .MajorSeventh),
   ([("seventh").data, ("7").data], .Seventh),
   ([("triad").data], .Triad)]

/-- The number recognizer loop; when no alias matches the result defaults to
`(Triad, None)` rather than failing. -/
def numberFind : List (List (List Char) × Number) → List Char →
    Except ChordError (Number × Option (Nat × Nat))
  | [], _ => .ok (.Triad, none)
  | (regex, numberEnum) :: rest, s =>
    match findLit regex s with
    | some numberMatch => .ok (numberEnum, some numberMatch)
    | none => numberFind rest s

/-- `Number::from_regex`.
Modelled from the spec: when no number token is found the result defaults to
Triad rather than failing. -/
def Number.from_regex (s : List Char) : Except ChordError (Number × Option (Nat × Nat)) :=
  numberFind numberRegexes s

/-- The `.unwrap_or((Triad, None))` applied by chord.rs to the result of
`Number::from_regex`. -/
def unwrapOrTriad (r : Except ChordError (Number × Option (Nat × Nat))) :
    Number × Option (Nat × Nat) :=
  r.toOption.getD (.Triad, none)

/-- Lines 95–101 of chord.rs: the chord's number is parsed from the text
after the quality match and defaults to Triad, both when `Number::from_regex`
fails (`unwrap_or`) and when the quality was recognized with no match span
(the `else` branch). -/
def numberClause (s : List Char) (qualityMatchOption : Option (Nat × Nat)) : Number :=
  match qualityMatchOption with
  | some qualityMatch => (unwrapOrTriad (Number.from_regex (s.drop qualityMatch.2))).1
  | none => .Triad

/-- The octave pull-down of `Chord::notes` (lines 134–138): if the first
note's octave exceeds the chord's octave, subtract the excess from every
note's octave.  The subtraction is on `u8`; an underflow (a debug-build
panic) is modelled as `none` and proved unreachable for chords built from
the interval table. -/
def pullDown (octave : Nat) : List Note → Option (List Note)
  | [] => some []
  | n0 :: rest =>
    if octave < n0.octave then
      let diff := n0.octave - octave
      if (n0 :: rest).all (fun n => decide (diff ≤ n.octave)) then
        some ({ n0 with octave := n0.octave - diff } ::
              rest.map (fun n => { n with octave := n.octave - diff }))
      else none
    else some (n0 :: rest)

/-- The octave-increment loop of `Chord::notes` (lines 141–147), walking left
to right with the already-updated previous note: a pitch-class ordinal
non-increase forces `previous.octave + 1`; an octave regression is raised to
the previous octave. -/
def normLoop (prev : Note) : List Note → List Note
  | [] => []
  | n :: rest =>
    let n2 :=
      if n.pitch_class.val ≤ prev.pitch_class.val then { n with octave := prev.octave + 1 }
      else if n.octave < prev.octave then { n with octave := prev.octave }
      else n
    n2 :: normLoop n2 rest

/-- The octave-increment loop applied to the whole sequence (index 1
onward). -/
def normalize : List Note → List Note
  | [] => []
  | n0 :: rest => n0 :: normLoop n0 rest

/-- `Chord::notes` (the `Notes` impl for `Chord`): expand the intervals from
the root, rotate left by the inversion, pull the voicing back down to the
root octave, then fix up octave increments.  `Vec::rotate_left` panics when
its argument exceeds the vector length; the panic is modelled as `none`. -/
def Chord.notes (c : Chord) : Option (List Note) :=
  let rootNote : Note := { pitch_class := c.root, octave := c.octave }
  let raw := Interval.to_notes rootNote c.intervals
  if c.inversion ≤ raw.length then
    (pullDown c.octave (raw.rotate c.inversion)).map normalize
  else
    none

/-- The `From<NoteError>` conversion used by the `?` on
`PitchClass::from_regex` inside `Chord::from_regex`. -/
def noteErrToChordErr : NoteError → ChordError
  | .InvalidPitch => .InvalidPitch

/-- `Chord::from_regex` (chord.rs lines 81–122), transcribed clause by
clause: parse the root pitch class; split at the first `/` and try the text
after it as a bass pitch class; parse the quality from the text between the
root match and the slash (trimmed); parse the number from the text after the
quality match, defaulting to Triad; build the chord; if a bass note parsed,
locate its pitch class in the un-rotated note sequence and rebuild with that
inversion when it is non-zero. -/
def Chord.from_regex (string : List Char) : Except ChordError Chord :=
  match PitchClass.from_regex string with
  | .error e => .error (noteErrToChordErr e)
  | .ok (pitch_class, pitchMatchEnd) =>
    let slashOption := findCharIdx '/' string
    let bassNoteResult : Except NoteError (PitchClass × Nat) :=
      match slashOption with
      | some slash => PitchClass.from_regex (trim (string.drop (slash + 1)))
      | none => .error .InvalidPitch
    match Quality.from_regex
        (trim ((string.take (slashOption.getD string.length)).drop pitchMatchEnd)) with
    | .error e => .error e
    | .ok (quality, qualityMatchOption) =>
      let number := numberClause string qualityMatchOption
      let chord := Chord.new pitch_class quality number
      match bassNoteResult with
      | .ok (bass_note, _) =>
        let inversion :=
          (position (fun note => note.pitch_class == bass_note) ((chord.notes).getD [])).getD 0
        if inversion ≠ 0 then
          .ok (Chord.with_inversion pitch_class quality number inversion)
        else
          .ok chord
      | .error _ => .ok chord

/-- `Iterator::position` only returns indices inside the sequence. -/
theorem position_lt_length :
    ∀ (l : List Note) (p : Note → Bool) (i : Nat), position p l = some i → i < l.length := by
  intro l
  induction l with
  | nil => intro p i h; cases h
  | cons n rest ih =>
    intro p i h
    simp only [position] at h
    by_cases hp : p n
    · rw [if_pos hp] at h
      cases h
      exact Nat.succ_pos _
    · rw [if_neg hp] at h
      cases hrest : position p rest with
      | none => rw [hrest] at h; cases h
      | some j =>
        rw [hrest] at h
        cases h
        exact Nat.succ_lt_succ (ih p j hrest)

/-- The interval walk produces one note per interval. -/
theorem toNotesGo_length : ∀ (ivs : List Interval) (prev : Note),
    (toNotesGo prev ivs).length = ivs.length := by
  intro ivs
  induction ivs with
  | nil => intro prev; rfl
  | cons iv rest ih => intro prev; simp only [toNotesGo, List.length_cons, ih]

/-- `Interval::to_notes` produces `intervals.len() + 1` notes. -/
theorem to_notes_length (root : Note) (ivs : List Interval) :
    (Interval.to_notes root ivs).length = ivs.length + 1 := by
  simp only [Interval.to_notes, List.length_cons, toNotesGo_length]

/-- The octave-increment loop preserves the length. -/
theorem normLoop_length : ∀ (l : List Note) (prev : Note),
    (normLoop prev l).length = l.length := by
  intro l
  induction l with
  | nil => intro prev; rfl
  | cons n rest ih => intro prev; simp only [normLoop, List.length_cons, ih]

/-- `normalize` preserves the length. -/
theorem normalize_length : ∀ l : List Note, (normalize l).length = l.length := by
  intro l
  cases l with
  | nil => rfl
  | cons n rest => simp only [normalize, List.length_cons, normLoop_length]

/-- The octave pull-down preserves the length when it succeeds. -/
theorem pullDown_length :
    ∀ (octave : Nat) (l out : List Note), pullDown octave l = some out →
      out.length = l.length := by
  intro octave l out h
  cases l with
  | nil => cases h; rfl
  | cons n0 rest =>
    simp only [pullDown] at h
    by_cases h0 : octave < n0.octave
    · rw [if_pos h0] at h
      by_cases hall : (n0 :: rest).all (fun n => decide (n0.octave - octave ≤ n.octave)) = true
      · rw [if_pos hall] at h
        cases h
        simp only [List.length_cons, List.length_map]
      · rw [if_neg hall] at h; cases h
    · rw [if_neg h0] at h
      cases h
      rfl

/-- A chord in root position never hits the pull-down branch: its note list
is the normalized interval expansion. -/
theorem notes_inversion_zero (c : Chord) (h : c.inversion = 0) :
    c.notes = some (normalize (Interval.to_notes ⟨c.root, c.octave⟩ c.intervals)) := by
  simp only [Chord.notes, h, Nat.zero_le, if_pos, List.rotate_zero]
  simp only [Interval.to_notes, pullDown, Nat.lt_irrefl, if_neg, Option.map_some]
  rfl

/-- `Chord::new` stores inversion 0. -/
theorem new_inversion (root : PitchClass) (q : Quality) (n : Number) :
    (Chord.new root q n).inversion = 0 :=
  Nat.zero_mod _

/-- `Chord::new` stores the interval table for its quality and number. -/
theorem new_intervals (root : PitchClass) (q : Quality) (n : Number) :
    (Chord.new root q n).intervals = Chord.chord_intervals q n :=
  rfl

/-- C1 counterexample: `Chord::from_regex("C/1")` does not produce the
first-inversion voicing `[E4, G4, C5]` the claim describes — its note
sequence is the root-position `[C4, E4, G4]`. -/
theorem claim1_counterexample :
    (Chord.from_regex (("C/1").data)).map (fun c => c.notes) ≠
      .ok (some [⟨.E, 4⟩, ⟨.G, 4⟩, ⟨.C, 5⟩]) ∧
    (Chord.from_regex (("C/1").data)).map (fun c => c.notes) =
      .ok (some [⟨.C, 4⟩, ⟨.E, 4⟩, ⟨.G, 4⟩]) := by
  refine ⟨by decide, by decide⟩

/-- C1 as amended: `Chord::from_regex` never tries the bass clause as an
integer — only as a pitch class, which fails on "1" — so "C/1" parses to the
root-position C major triad: inversion 0 and notes `[C4, E4, G4]`. -/
theorem claim1_theorem :
    (Chord.from_regex (("C/1").data)).map
        (fun c => (c.root, c.quality, c.number, c.inversion, c.notes)) =
      .ok (.C, .Major, .Triad, 0, some [⟨.C, 4⟩, ⟨.E, 4⟩, ⟨.G, 4⟩]) := by
  rfl

/-- C6 counterexample: on "C/zzz" the bass clause parses as neither an
integer nor a pitch class, yet `Chord::from_regex` succeeds with inversion 0
instead of failing with an inversion-format error. -/
theorem claim6_counterexample :
    (Chord.from_regex (("C/zzz").data)).isOk = true ∧
    (Chord.from_regex (("C/zzz").data)).map (fun c => c.inversion) = .ok 0 := by
  refine ⟨by decide, by decide⟩

/-- C6 as amended: when the bass clause fails to parse as a pitch class (it
is never tried as an integer) while the main clause parses — the root pitch
class and the quality recognizer succeed — `Chord::from_regex` silently
succeeds with inversion 0; no `InversionFormat` error is ever produced. -/
theorem claim6_theorem :
    ∀ (s : List Char) (pc : PitchClass) (pe slash : Nat) (e : NoteError)
      (q : Quality) (qOpt : Option (Nat × Nat)),
      PitchClass.from_regex s = .ok (pc, pe) →
      findCharIdx '/' s = some slash →
      PitchClass.from_regex (trim (s.drop (slash + 1))) = .error e →
      Quality.from_regex (trim ((s.take slash).drop pe)) = .ok (q, qOpt) →
      ∃ c, Chord.from_regex s = .ok c ∧ c.inversion = 0 := by
  intro s pc pe slash e q qOpt hroot hslash hbass hq
  refine ⟨Chord.new pc q (numberClause s qOpt), ?_, new_inversion _ _ _⟩
  simp only [Chord.from_regex, hroot, hslash, hbass, Option.getD_some, hq]

/-- Witness for C6 (amended) at the concrete input "D/zzz" (whose quality
clause is empty, hence recognized as `(Major, None)`). -/
theorem claim6_witness :
    ∃ c, Chord.from_regex (("D/zzz").data) = .ok c ∧ c.inversion = 0 :=
  claim6_theorem (("D/zzz").data) .D 1 1 .InvalidPitch .Major none
    (by decide) (by decide) (by decide) (by decide)

/-- C7: when the bass clause parses as a pitch class, `Chord::from_regex`
succeeds and the resulting inversion is the position of that pitch class in
the un-rotated note sequence of the base chord, defaulting to 0 (still a
success, not an error) when the pitch class does not occur. -/
theorem claim7_theorem :
    ∀ (s : List Char) (pc b : PitchClass) (pe be slash : Nat) (q : Quality)
      (qOpt : Option (Nat × Nat)),
      PitchClass.from_regex s = .ok (pc, pe) →
      findCharIdx '/' s = some slash →
      PitchClass.from_regex (trim (s.drop (slash + 1))) = .ok (b, be) →
      Quality.from_regex (trim ((s.take slash).drop pe)) = .ok (q, qOpt) →
      ∃ c, Chord.from_regex s = .ok c ∧
        c.inversion = (position (fun note => note.pitch_class == b)
          (((Chord.new pc q (numberClause s qOpt)).notes).getD [])).getD 0 := by
  intro s pc b pe be slash q qOpt hroot hslash hbass hq
  cases hpos : position (fun note => note.pitch_class == b)
      (((Chord.new pc q (numberClause s qOpt)).notes).getD []) with
  | none =>
    refine ⟨Chord.new pc q (numberClause s qOpt), ?_, new_inversion _ _ _⟩
    simp only [Chord.from_regex, hroot, hslash, hbass, Option.getD_some, hq, hpos]
    simp
  | some i =>
    cases i with
    | zero =>
      refine ⟨Chord.new pc q (numberClause s qOpt), ?_, new_inversion _ _ _⟩
      simp only [Chord.from_regex, hroot, hslash, hbass, Option.getD_some, hq, hpos]
      simp
    | succ j =>
      refine ⟨Chord.with_inversion pc q (numberClause s qOpt) (j + 1), ?_, ?_⟩
      · simp only [Chord.from_regex, hroot, hslash, hbass, Option.getD_some, hq, hpos]
        simp
      · show (j + 1) % ((Chord.chord_intervals q (numberClause s qOpt)).length + 1) =
          (some (j + 1)).getD 0
        apply Nat.mod_eq_of_lt
        have hlen := position_lt_length _ _ _ hpos
        rw [notes_inversion_zero (Chord.new pc q (numberClause s qOpt))
          (new_inversion _ _ _)] at hlen
        simpa [normalize_length, to_notes_length, new_intervals] using hlen

/-- Witness for C7 at the concrete input "C/E": the bass E sits at position 1
of the un-rotated C major triad, so the inversion is 1. -/
theorem claim7_witness :
    ∃ c, Chord.from_regex (("C/E").data) = .ok c ∧
      c.inversion = (position (fun note => note.pitch_class == PitchClass.E)
        (((Chord.new .C .Major (numberClause (("C/E").data) none)).notes).getD [])).getD 0 :=
  claim7_theorem (("C/E").data) .C .E 1 1 1 .Major none
    (by decide) (by decide) (by decide) (by decide)

/-- C8: a failed number recognition never fails the whole
`Chord::from_regex` call — the `unwrap_or` maps any `Number::from_regex`
error to Triad, a quality recognized with no match span also yields Triad,
and once the root pitch class and the quality recognizer have succeeded
(with or without a match span), the whole call succeeds whatever the
number text is. -/
theorem claim8_theorem :
    (∀ r : Except ChordError (Number × Option (Nat × Nat)),
      r.isOk = false → (unwrapOrTriad r).1 = Number.Triad) ∧
    (∀ s : List Char, numberClause s none = Number.Triad) ∧
    (∀ (s : List Char) (pc : PitchClass) (pe : Nat) (q : Quality)
      (qOpt : Option (Nat × Nat)),
      PitchClass.from_regex s = .ok (pc, pe) →
      Quality.from_regex
        (trim ((s.take ((findCharIdx '/' s).getD s.length)).drop pe)) = .ok (q, qOpt) →
      (Chord.from_regex s).isOk = true) := by
  refine ⟨?_, fun s => rfl, ?_⟩
  · intro r h
    cases r with
    | ok a => simp [Except.isOk, Except.toBool] at h
    | error e => rfl
  · intro s pc pe q qOpt hroot hq
    cases hslash : findCharIdx '/' s with
    | none =>
      rw [hslash] at hq
      simp only [Option.getD_none] at hq
      simp only [Chord.from_regex, hroot, hslash, Option.getD_none, hq]
      rfl
    | some slash =>
      rw [hslash] at hq
      simp only [Option.getD_some] at hq
      cases hbass : PitchClass.from_regex (trim (s.drop (slash + 1))) with
      | error e =>
        simp only [Chord.from_regex, hroot, hslash, hbass, Option.getD_some, hq]
        rfl
      | ok bp =>
        obtain ⟨b, be⟩ := bp
        simp only [Chord.from_regex, hroot, hslash, hbass, Option.getD_some, hq]
        split
        · rfl
        · rfl

/-- Witness for C8: a concrete `NumberFromRegex` error maps to Triad, a
span-less quality on "C" yields Triad, and `Chord::from_regex("C")` (whose
quality clause is empty, recognized as `(Major, None)`) succeeds. -/
theorem claim8_witness :
    (unwrapOrTriad (.error .NumberFromRegex)).1 = Number.Triad ∧
    numberClause (("C").data) none = Number.Triad ∧
    (Chord.from_regex (("C").data)).isOk = true :=
  ⟨claim8_theorem.1 (.error .NumberFromRegex) rfl,
   claim8_theorem.2.1 (("C").data),
   claim8_theorem.2.2 (("C").data) .C 1 .Major none (by decide) (by decide)⟩

/-- The interval walk never decreases the octave. -/
theorem toNotesGo_octave_ge :
    ∀ (ivs : List Interval) (prev : Note), ∀ note ∈ toNotesGo prev ivs,
      prev.octave ≤ note.octave := by
  intro ivs
  induction ivs with
  | nil => intro prev note h; cases h
  | cons iv rest ih =>
    intro prev note h
    simp only [toNotesGo, List.mem_cons] at h
    have hstep : prev.octave ≤ (nextNote prev iv).octave := Nat.le_add_right _ _
    cases h with
    | inl h => rw [h]; exact hstep
    | inr h => exact Nat.le_trans hstep (ih (nextNote prev iv) note h)

/-- Every note of `Interval::to_notes` sits at or above the root octave. -/
theorem to_notes_octave_ge (root : Note) (ivs : List Interval) :
    ∀ note ∈ Interval.to_notes root ivs, root.octave ≤ note.octave := by
  intro note h
  simp only [Interval.to_notes, List.mem_cons] at h
  cases h with
  | inl h => rw [h]
  | inr h => exact toNotesGo_octave_ge ivs root note h

/-- Finite check: expanding any interval table of `chord_intervals` from any
root in octave 4 never reaches past octave 6 (the table's semitone sums allow
at most two pitch-class wraps). -/
theorem octave_bound_all :
    ∀ (root : PitchClass) (q : Quality) (n : Number),
      ((Interval.to_notes ⟨root, 4⟩ (Chord.chord_intervals q n)).all
        (fun note => decide (note.octave ≤ 6))) = true := by
  decide

/-- Membership form of `octave_bound_all`. -/
theorem octave_bound (root : PitchClass) (q : Quality) (n : Number) :
    ∀ note ∈ Interval.to_notes ⟨root, 4⟩ (Chord.chord_intervals q n), note.octave ≤ 6 := by
  intro note hmem
  have h := octave_bound_all root q n
  rw [List.all_eq_true] at h
  exact of_decide_eq_true (h note hmem)

/-- For a chord with the invariant fields — octave 4, intervals from the
table, inversion at most `intervals.len()` — `notes` succeeds (neither the
rotation nor the octave pull-down can panic) and returns
`intervals.len() + 1` notes. -/
theorem notes_wf_some :
    ∀ c : Chord, c.octave = 4 → c.intervals = Chord.chord_intervals c.quality c.number →
      c.inversion ≤ c.intervals.length →
      ∃ ns, c.notes = some ns ∧ ns.length = c.intervals.length + 1 := by
  intro c hoct hint hinv
  obtain ⟨root, octave, intervals, q, n, inv⟩ := c
  simp only at hoct hint hinv
  subst hoct
  subst hint
  simp only [Chord.notes]
  have hlenraw := to_notes_length (⟨root, 4⟩ : Note) (Chord.chord_intervals q n)
  have hcond : inv ≤ (Interval.to_notes ⟨root, 4⟩ (Chord.chord_intervals q n)).length := by
    rw [hlenraw]
    exact Nat.le_succ_of_le hinv
  rw [if_pos hcond]
  have hrotlen : ((Interval.to_notes ⟨root, 4⟩ (Chord.chord_intervals q n)).rotate inv).length =
      (Chord.chord_intervals q n).length + 1 := by
    rw [List.length_rotate, hlenraw]
  obtain ⟨n0, rest, hcons⟩ : ∃ n0 rest,
      (Interval.to_notes ⟨root, 4⟩ (Chord.chord_intervals q n)).rotate inv = n0 :: rest := by
    cases hr : (Interval.to_notes ⟨root, 4⟩ (Chord.chord_intervals q n)).rotate inv with
    | nil => rw [hr] at hrotlen; exact absurd hrotlen (by simp)
    | cons a l => exact ⟨a, l, rfl⟩
  have hmemraw : ∀ nt ∈ (n0 :: rest),
      nt ∈ Interval.to_notes ⟨root, 4⟩ (Chord.chord_intervals q n) := by
    intro nt hm
    rw [← hcons] at hm
    exact (List.mem_rotate).mp hm
  have hge4 : ∀ nt ∈ (n0 :: rest), 4 ≤ nt.octave := by
    intro nt hm
    exact to_notes_octave_ge ⟨root, 4⟩ _ nt (hmemraw nt hm)
  have hle6 : n0.octave ≤ 6 := octave_bound root q n n0 (hmemraw n0 (List.mem_cons_self _ _))
  have hlen01 : (n0 :: rest).length = (Chord.chord_intervals q n).length + 1 := by
    rw [← hcons]
    exact hrotlen
  rw [hcons]
  simp only [pullDown]
  by_cases h0 : 4 < n0.octave
  · rw [if_pos h0]
    have hall : ((n0 :: rest).all fun nt => decide (n0.octave - 4 ≤ nt.octave)) = true := by
      rw [List.all_eq_true]
      intro nt hm
      apply decide_eq_true
      have := hge4 nt hm
      omega
    rw [if_pos hall]
    refine ⟨_, rfl, ?_⟩
    simp only [normalize_length, List.length_cons, List.length_map]
    simpa using hlen01
  · rw [if_neg h0]
    refine ⟨_, rfl, ?_⟩
    rw [normalize_length]
    exact hlen01

/-- The per-step octave rule enforced by the final loop of `Chord::notes`:
a pitch-class ordinal non-increase forces octave `+1`; a strict ordinal
increase never lets the octave regress. -/
def octaveRule (a b : Note) : Prop :=
  (b.pitch_class.val ≤ a.pitch_class.val → b.octave = a.octave + 1) ∧
  (a.pitch_class.val < b.pitch_class.val → a.octave ≤ b.octave)

/-- The octave-increment loop establishes `octaveRule` between each element
and its (already updated) predecessor. -/
theorem normLoop_chain :
    ∀ (l : List Note) (prev : Note), List.Chain octaveRule prev (normLoop prev l) := by
  intro l
  induction l with
  | nil => intro prev; exact List.Chain.nil
  | cons n rest ih =>
    intro prev
    simp only [normLoop]
    refine List.Chain.cons ?_ (ih _)
    by_cases h1 : n.pitch_class.val ≤ prev.pitch_class.val
    · rw [if_pos h1]
      exact ⟨fun _ => rfl, fun _ => Nat.le_succ _⟩
    · rw [if_neg h1]
      by_cases h2 : n.octave < prev.octave
      · rw [if_pos h2]
        exact ⟨fun hle => absurd hle h1, fun _ => Nat.le_refl _⟩
      · rw [if_neg h2]
        exact ⟨fun hle => absurd hle h1, fun _ => Nat.le_of_not_lt h2⟩

/-- `normalize` always outputs an `octaveRule`-chained sequence. -/
theorem normalize_chain : ∀ l : List Note, List.Chain' octaveRule (normalize l) := by
  intro l
  cases l with
  | nil => trivial
  | cons n0 rest => exact normLoop_chain rest n0

/-- Every successful result of `Chord::notes` satisfies the octave rule
pairwise: the final loop runs unconditionally over the whole sequence. -/
theorem notes_chain :
    ∀ (c : Chord) (ns : List Note), c.notes = some ns → List.Chain' octaveRule ns := by
  intro c ns h
  simp only [Chord.notes] at h
  by_cases hc : c.inversion ≤ (Interval.to_notes ⟨c.root, c.octave⟩ c.intervals).length
  · rw [if_pos hc] at h
    obtain ⟨out, _, hmap⟩ := Option.map_eq_some'.mp h
    rw [← hmap]
    exact normalize_chain out
  · rw [if_neg hc] at h
    cases h

/-- C4: for every chord built by `with_inversion` (any root, quality, number
and requested inversion — the stored one lies in `0..=intervals.len()`),
`notes()` succeeds and the produced sequence satisfies octave monotonicity:
a pitch-class ordinal non-increase between consecutive notes forces octave
`previous + 1`, and a strict ordinal increase never decreases the octave. -/
theorem claim4_theorem :
    ∀ (root : PitchClass) (q : Quality) (n : Number) (inv : Nat),
      ∃ ns, (Chord.with_inversion root q n inv).notes = some ns ∧
        List.Chain' octaveRule ns := by
  intro root q n inv
  have hinv : (Chord.with_inversion root q n inv).inversion ≤
      (Chord.with_inversion root q n inv).intervals.length := by
    show inv % ((Chord.chord_intervals q n).length + 1) ≤ (Chord.chord_intervals q n).length
    exact Nat.lt_succ_iff.mp (Nat.mod_lt _ (Nat.succ_pos _))
  obtain ⟨ns, hns, _⟩ := notes_wf_some _ rfl rfl hinv
  exact ⟨ns, hns, notes_chain _ ns hns⟩

/-- Witness for C4 at a concrete chord (first-inversion C major triad). -/
theorem claim4_witness :
    ∃ ns, (Chord.with_inversion .C .Major .Triad 1).notes = some ns ∧
      List.Chain' octaveRule ns :=
  claim4_theorem .C .Major .Triad 1

/-- C10: `Chord::notes` is panic-free under the inversion invariant — for a
chord whose fields respect construction (octave 4, intervals from the table)
and whose inversion is at most `intervals.len()`, it returns
`intervals.len() + 1` notes — while mutating the public `inversion` field to
any value greater than `intervals.len() + 1` makes `notes()` panic
(`Vec::rotate_left` requires its argument to be at most the vector length);
the invariant is not re-validated on mutation. -/
theorem claim10_theorem :
    (∀ c : Chord, c.octave = 4 → c.intervals = Chord.chord_intervals c.quality c.number →
      c.inversion ≤ c.intervals.length →
      ∃ ns, c.notes = some ns ∧ ns.length = c.intervals.length + 1) ∧
    (∀ c : Chord, c.intervals.length + 1 < c.inversion → c.notes = none) := by
  refine ⟨notes_wf_some, ?_⟩
  intro c h
  have hc : ¬ c.inversion ≤ (Interval.to_notes ⟨c.root, c.octave⟩ c.intervals).length := by
    rw [to_notes_length]
    omega
  simp only [Chord.notes]
  rw [if_neg hc]

/-- Witness for C10: a C major triad with inversion 1 yields 3 notes, and
the same chord with its inversion field mutated to 9 panics. -/
theorem claim10_witness :
    (∃ ns, (Chord.mk PitchClass.C 4 (Chord.chord_intervals Quality.Major Number.Triad)
        Quality.Major Number.Triad 1).notes = some ns ∧
        ns.length = (Chord.chord_intervals Quality.Major Number.Triad).length + 1) ∧
    (Chord.mk PitchClass.C 4 (Chord.chord_intervals Quality.Major Number.Triad)
        Quality.Major Number.Triad 9).notes = none :=
  ⟨claim10_theorem.1 _ rfl rfl (by decide), claim10_theorem.2 _ (by decide)⟩

end RustMusicTheory
